import Mathlib

/-!
Verification of the typed, expiring, transactional data layer of the wedis
key-value server, shallowly embedded from the Rust sources. Byte strings are
lists of byte values; the ordered store is a map from physical keys to values;
transactions collapse to sequential state passing (all claims here are
single-threaded). Machine integers are modelled as Nat/Int with explicit
wrap-around where the source can overflow.
-/

namespace Wedis

/-- A binary-safe byte string, as in the Rust sources (`Vec<u8>` / `&[u8]`). -/
abbrev Bytes := List Nat

/-- prepend_key from src/database.rs: concatenate a two-byte tag and the key. -/
def prepend_key (key pfx : Bytes) : Bytes := pfx ++ key

/-- Physical key `T:` ‖ K (TTL record), tag bytes 84 58. -/
def ttlKey (k : Bytes) : Bytes := prepend_key k [84, 58]

/-- Physical key `t:` ‖ K (type record), tag bytes 116 58. -/
def typeKey (k : Bytes) : Bytes := prepend_key k [116, 58]

/-- Physical key `d:` ‖ K (data record), tag bytes 100 58. -/
def dataKey (k : Bytes) : Bytes := prepend_key k [100, 58]

/-- One-byte type tag "S" for strings. -/
def TYPE_STRING : Bytes := [83]

/-- One-byte type tag "H" for hashes. -/
def TYPE_HASH : Bytes := [72]

/-- The ordered key-value store (rocksdb `TransactionDB`), modelled as a map
from physical keys to stored values. -/
abbrev Store := Bytes → Option Bytes

/-- Point read of the store. -/
def Store.get (s : Store) (k : Bytes) : Option Bytes := s k

/-- Point write of the store. -/
def Store.put (s : Store) (k v : Bytes) : Store :=
  fun q => if q = k then some v else s q

/-- Point delete of the store. -/
def Store.del (s : Store) (k : Bytes) : Store :=
  fun q => if q = k then none else s q

/-- The store holding no records. -/
def Store.empty : Store := fun _ => none

/-- ASCII decimal digit test. -/
def isAsciiDigit (c : Nat) : Bool := 48 ≤ c && c ≤ 57

/-- Value of a string of ASCII decimal digits, most significant first. -/
def digitsVal (l : Bytes) : Nat := l.foldl (fun acc c => acc * 10 + (c - 48)) 0

/-- Rust `str::parse::<i64>` on raw bytes: an optional sign, one or more ASCII
digits, and the result must be representable as a signed 64-bit integer.
Byte input that is not valid UTF-8 never parses in the source either (the
lossy conversion inserts replacement characters), so parsing directly on
bytes is faithful. -/
def parseI64 (s : Bytes) : Option Int :=
  match s with
  | [] => none
  | c :: rest =>
    let digits : Bytes := if c = 45 || c = 43 then rest else s
    let sign : Int := if c = 45 then -1 else 1
    if digits.isEmpty || !digits.all isAsciiDigit then none
    else
      let v : Int := sign * digitsVal digits
      if v < -(2 ^ 63) || 2 ^ 63 - 1 < v then none else some v

/-- parse_timestamp from src/time.rs: parse an ASCII-decimal i64 and read it as
a millisecond duration. A parse failure is an error; a negative value makes
the source panic on the conversion to u64 and is modelled as none as well. -/
def parse_timestamp (b : Bytes) : Option Nat :=
  match parseI64 b with
  | none => none
  | some ts => if ts < 0 then none else some ts.toNat

/-- Decimal ASCII rendering of a natural number below 10 ^ 20 (which covers
every value of i64 magnitude); digit at weight 10 ^ i is emitted when the
number reaches that weight. -/
def natToAscii (n : Nat) : Bytes :=
  let ds := ((List.range 20).reverse).filterMap fun i =>
    if 10 ^ i ≤ n then some (n / 10 ^ i % 10 + 48) else none
  if ds.isEmpty then [48] else ds

/-- Rust `i64::to_string` on the embedded integers: sign byte then magnitude. -/
def intToAscii (i : Int) : Bytes :=
  if i < 0 then 45 :: natToAscii i.natAbs else natToAscii i.toNat

/-- serialize_duration_as_timestamp from src/time.rs: the absolute expiry
instant `now + duration` in milliseconds, rendered as ASCII decimal; the
conversion of the u128 millisecond count into i64 fails when it does not fit. -/
def serialize_duration_as_timestamp (now durMs : Nat) : Option Bytes :=
  if now + durMs ≤ 2 ^ 63 - 1 then some (natToAscii (now + durMs)) else none

/-- ASCII lower-casing of one byte. -/
def asciiLower (c : Nat) : Nat := if 65 ≤ c ∧ c ≤ 90 then c + 32 else c

/-- Rust `eq_ignore_ascii_case` on byte strings. -/
def eqIgnoreAsciiCase (a b : Bytes) : Bool :=
  decide (a.map asciiLower = b.map asciiLower)

/-- DatabaseError from src/database.rs. The variants are exactly those of the
source enum; note that no integer-overflow variant exists there. -/
inductive DatabaseError
  | rocksDB
  | serde
  | parseInt
  | parseFloat
  | invalidTime
  | wrongType (expected : Bytes)
deriving DecidableEq

/-- Database::validate_typed_value: absent type record passes; a present one
must match the expected tag up to ASCII case. -/
def validate_typed_value (tv : Option Bytes) (expected : Bytes) :
    Except DatabaseError Unit :=
  match tv with
  | none => .ok ()
  | some t =>
    if eqIgnoreAsciiCase t expected then .ok () else .error (.wrongType expected)

/-- Database::get_typed_value (and its for_update twin, identical logic): read
the triple; an elapsed TTL (stored timestamp saturating-minus now equal to
zero) makes the key read as absent; otherwise the type tag is validated and
the data record returned. -/
def get_typed_value (st : Store) (now : Nat) (key typeId : Bytes) :
    Except DatabaseError (Option Bytes) :=
  match st.get (ttlKey key) with
  | some ttlBytes =>
    match parse_timestamp ttlBytes with
    | none => .error .invalidTime
    | some ts =>
      if ts - now = 0 then .ok none
      else
        match validate_typed_value (st.get (typeKey key)) typeId with
        | .error e => .error e
        | .ok _ => .ok (st.get (dataKey key))
  | none =>
    match validate_typed_value (st.get (typeKey key)) typeId with
    | .error e => .error e
    | .ok _ => .ok (st.get (dataKey key))

/-- Database::put_typed_value_txn: write the type tag and the payload and
delete the TTL record, in one transaction. -/
def put_typed_value (st : Store) (key value typeId : Bytes) : Store :=
  ((st.put (typeKey key) typeId).put (dataKey key) value).del (ttlKey key)

/-- Database::delete_typed_value: remove all three physical records. -/
def delete_typed_value (st : Store) (key : Bytes) : Store :=
  ((st.del (typeKey key)).del (dataKey key)).del (ttlKey key)

/-- Database::exists (renamed, `exists` is reserved in Lean): presence of the
type record only; the TTL record is never consulted. -/
def existsBool (st : Store) (key : Bytes) : Bool :=
  (st.get (typeKey key)).isSome

/-- DatabaseOperations::exists for Database: 1 when the type record is
present, 0 otherwise. -/
def existsInt (st : Store) (key : Bytes) : Int :=
  if existsBool st key then 1 else 0

/-- DatabaseOperations::get_string. -/
def get_string (st : Store) (now : Nat) (key : Bytes) :
    Except DatabaseError (Option Bytes) :=
  get_typed_value st now key TYPE_STRING

/-- DatabaseOperations::get_hash_field. The hash payload codec (serde_json, an
external dependency) is passed as the decoding function; a decode failure is
the serde error, and the field is then looked up in the decoded mapping. -/
def get_hash_field (decodeHash : Bytes → Option (List (Bytes × Bytes)))
    (st : Store) (now : Nat) (key field : Bytes) :
    Except DatabaseError (Option Bytes) :=
  match get_typed_value st now key TYPE_HASH with
  | .error e => .error e
  | .ok none => .ok none
  | .ok (some h) =>
    match decodeHash h with
    | none => .error .serde
    | some dict => .ok (dict.lookup field)

/-- DatabaseOperations::put_string. -/
def put_string (st : Store) (key value : Bytes) : Store :=
  put_typed_value st key value TYPE_STRING

/-- Database::get_expiry: none when no TTL record exists; otherwise the parsed
absolute timestamp saturating-minus now (an elapsed key is NOT treated as
absent here). -/
def get_expiry (st : Store) (now : Nat) (key : Bytes) :
    Except DatabaseError (Option Nat) :=
  match st.get (ttlKey key) with
  | none => .ok none
  | some ttlBytes =>
    match parse_timestamp ttlBytes with
    | none => .error .invalidTime
    | some ts => .ok (some (ts - now))

/-- Database::put_expiry: write the serialized absolute expiry instant under
the TTL key (the get_for_update on the data key is a pure lock). -/
def put_expiry (st : Store) (now : Nat) (key : Bytes) (expiresInMs : Nat) :
    Except DatabaseError Store :=
  match serialize_duration_as_timestamp now expiresInMs with
  | none => .error .invalidTime
  | some ttlBytes => .ok (st.put (ttlKey key) ttlBytes)

/-- Database::delete_expiry: 0 and no write when no TTL record exists, else
delete it and return 1. -/
def delete_expiry (st : Store) (key : Bytes) : Int × Store :=
  match st.get (ttlKey key) with
  | none => (0, st)
  | some _ => (1, st.del (ttlKey key))

/-- Two's-complement wrap-around of an integer into the i64 range, the release
semantics of Rust addition on i64. -/
def wrapI64 (x : Int) : Int := (x + 2 ^ 63) % 2 ^ 64 - 2 ^ 63

/-- DatabaseOperations::increment_by: transactional read of the string triple,
default "0" on absence, parse as i64, add the delta with Rust `+` (which has
no overflow check: it wraps in release builds and panics under debug
assertions; modelled as the wrap), write the decimal text back with tag S. -/
def increment_by (st : Store) (now : Nat) (key : Bytes) (amount : Int) :
    Except DatabaseError (Int × Store) :=
  match get_typed_value st now key TYPE_STRING with
  | .error e => .error e
  | .ok cur =>
    let curBytes := cur.getD [48]
    match parseI64 curBytes with
    | none => .error .parseInt
    | some c =>
      let next := wrapI64 (c + amount)
      .ok (next, put_typed_value st key (intToAscii next) TYPE_STRING)

/-- DatabaseOperations::delete: 0 when the type record is absent, else remove
the triple and return 1. -/
def deleteDb (st : Store) (key : Bytes) : Int × Store :=
  if existsBool st key then (1, delete_typed_value st key) else (0, st)

/-- Reply of the ttl command handler in src/commands/generic.rs: -2 / -1 when
no TTL record exists depending on key existence, else the remaining duration
in whole seconds. -/
def ttlReply (st : Store) (now : Nat) (key : Bytes) : Except DatabaseError Int :=
  match get_expiry st now key with
  | .error e => .error e
  | .ok none => if existsInt st key = 0 then .ok (-2) else .ok (-1)
  | .ok (some remMs) => .ok (remMs / 1000)

/-- Reply of the pttl command handler, as ttlReply but in milliseconds. -/
def pttlReply (st : Store) (now : Nat) (key : Bytes) : Except DatabaseError Int :=
  match get_expiry st now key with
  | .error e => .error e
  | .ok none => if existsInt st key = 0 then .ok (-2) else .ok (-1)
  | .ok (some remMs) => .ok remMs

/-- Outcome of the expire command handler: either the NX-conflict client error
reply, or an integer reply together with the resulting store. -/
inductive ExpireOutcome
  | optionConflict
  | replied (reply : Int) (st : Store)

/-- The expire command handler from src/commands/generic.rs, after argument
parsing: the key, the seconds value, and the four option flags. The inner
update_expiry closure replies 1 on success (an error from put_expiry replies
0 and then propagates, which the pure model surfaces as the error). -/
def expireCmd (st : Store) (now : Nat) (key : Bytes) (secs : Nat)
    (nx xx gt lt : Bool) : Except DatabaseError ExpireOutcome :=
  let expiresInMs := secs * 1000
  let upd : Except DatabaseError ExpireOutcome :=
    match put_expiry st now key expiresInMs with
    | .ok stAfter => .ok (.replied 1 stAfter)
    | .error e => .error e
  if nx && (xx || gt || lt) then .ok .optionConflict
  else if nx then
    match get_expiry st now key with
    | .error e => .error e
    | .ok (some _) => .ok (.replied 0 st)
    | .ok none => upd
  else if gt then
    match get_expiry st now key with
    | .error e => .error e
    | .ok (some ttl) => if expiresInMs < ttl then .ok (.replied 0 st) else upd
    | .ok none => if xx then .ok (.replied 0 st) else upd
  else if lt then
    match get_expiry st now key with
    | .error e => .error e
    | .ok (some ttl) => if expiresInMs > ttl then .ok (.replied 0 st) else upd
    | .ok none => if xx then .ok (.replied 0 st) else upd
  else if xx then
    match get_expiry st now key with
    | .error e => .error e
    | .ok (some _) => upd
    | .ok none => .ok (.replied 0 st)
  else upd

/-- Observation of an expire outcome: the integer reply and the TTL record the
resulting store holds for the key (stores are functions, so theorems observe
them at the relevant key instead of comparing them whole). -/
def expireObs (r : Except DatabaseError ExpireOutcome) (k : Bytes) :
    Option (Int × Option Bytes) :=
  match r with
  | .ok (.replied i st) => some (i, st.get (ttlKey k))
  | _ => none

/-- The persist command handler from src/commands/generic.rs: it discards the
0-or-1 count of delete_expiry and replies 1 whenever the call succeeds (the
pure model of delete_expiry cannot fail; the source error path replies 0 and
propagates). -/
def persistCmd (st : Store) (key : Bytes) : Int × Store :=
  (1, (delete_expiry st key).2)

/-- bit_to_mask from src/commands/bitmap.rs: ones below the given bit. -/
def bit_to_mask (toBit : Nat) : Nat := (1 <<< toBit) - 1

/-- Rust `u8::reverse_bits`. -/
def reverseBits8 (b : Nat) : Nat :=
  (List.range 8).foldl (fun acc i => acc + if b.testBit i then 2 ^ (7 - i) else 0) 0

/-- Local end_byte of bit_range: e0 / 8 clamped to the last byte index. -/
def end_byte (data : Bytes) (e0 : Nat) : Nat :=
  if data.length - 1 < e0 / 8 then data.length - 1 else e0 / 8

/-- Local end_bit_exclusive of bit_range: reset to the full bit length when
the end byte was clamped. -/
def end_bit_ex (data : Bytes) (e0 : Nat) : Nat :=
  if data.length - 1 < e0 / 8 then data.length * 8 else e0

/-- Local start_bitmask of bit_range: low-ones mask of the intra-byte start,
bit-reversed to mask the MSB side (the Rust u8 conversion of the mask cannot
overflow since start_bit % 8 ≤ 7). -/
def start_bitmask (start_bit : Nat) : Nat :=
  reverseBits8 (bit_to_mask (start_bit % 8))

/-- Local end_bitmask of bit_range, with the special all-ones case for a
nonzero byte-aligned end. -/
def end_bitmask (ebx : Nat) : Nat :=
  reverseBits8 (if ebx % 8 = 0 ∧ ebx ≠ 0 then 255 else bit_to_mask (ebx % 8))

/-- Per-position body of bit_range: zero outside [start_byte, end_byte], the
original byte with the boundary masks applied inside (both masks apply when
the range sits in a single byte, matching the source's ANDed masks). -/
def maskByte (data : Bytes) (start_bit e0 i : Nat) : Nat :=
  if i < start_bit / 8 ∨ end_byte data e0 < i then 0
  else
    let v := data.getD i 0
    let v1 := if i = start_bit / 8 then v &&& (255 - start_bitmask start_bit)
      else v
    if i = end_byte data e0 then v1 &&& end_bitmask (end_bit_ex data e0) else v1

/-- bit_range from src/commands/bitmap.rs: copy of the data with only the
bytes of [start_byte, end_byte] retained and the two boundary bytes masked;
the end byte index is clamped to the last byte. The imperative copy-and-mask
is rendered as a map over the byte positions. -/
def bit_range (data : Bytes) (start_bit e0 : Nat) : Bytes :=
  if data.length = 0 then [] else
  if end_byte data e0 < start_bit / 8 then [] else
  (List.range data.length).map (maskByte data start_bit e0)

/-- Value of bit i of a byte string under the Redis convention: bit 0 of each
byte is the most significant, index = byte-index * 8 + intra-byte index. -/
def bitAt (data : Bytes) (i : Nat) : Bool :=
  (data.getD (i / 8) 0).testBit (7 - i % 8)

/-- Count of one-bits of a single byte (popcnt::count_ones per byte). -/
def bytePopcount (b : Nat) : Nat :=
  ((List.range 8).filter fun t => b.testBit t).length

/-- popcnt::count_ones over a byte slice. -/
def popcount (data : Bytes) : Nat := (data.map bytePopcount).sum

/-- Loop body of find_first_bit_pos_byte: iterate intra-byte positions from
the most significant (i = fuel - 1) down, extracting
bit = (bale & (1 << i)) >> i and returning 7 - i for the first bit equal to
the needle. -/
def ffbpByteAux (bale needle : Nat) : Nat → Option Nat
  | 0 => none
  | i + 1 =>
    if needle = (bale &&& (1 <<< i)) >>> i then some (7 - i)
    else ffbpByteAux bale needle i

/-- find_first_bit_pos_byte from src/commands/bitmap.rs: the first MSB-first
position inside one byte whose bit equals the needle. -/
def find_first_bit_pos_byte (bale needle : Nat) : Option Nat :=
  ffbpByteAux bale needle 8

/-- Loop of find_first_bit_pos over the bytes, carrying the byte index: each
byte contributes at most its first matching intra-byte position, and that
candidate is returned only when it falls inside [s, e). -/
def ffbpAux (needle s e : Nat) : Bytes → Nat → Option Nat
  | [], _ => none
  | b :: rest, i =>
    match find_first_bit_pos_byte b needle with
    | some p =>
      if s ≤ i * 8 + p ∧ i * 8 + p < e then some (i * 8 + p)
      else ffbpAux needle s e rest (i + 1)
    | none => ffbpAux needle s e rest (i + 1)

/-- find_first_bit_pos from src/commands/bitmap.rs. -/
def find_first_bit_pos (haystack : Bytes) (needle s e : Nat) : Option Nat :=
  if e ≤ s then none else ffbpAux needle s e haystack 0

/-- Per-byte candidate positions of the search: each byte contributes at most
one candidate, the absolute index of its first intra-byte position whose bit
equals the needle (see mem_candList for the closed characterisation). -/
def candList (haystack : Bytes) (needle : Nat) : List Nat :=
  match haystack with
  | [] => []
  | b :: rest =>
    match find_first_bit_pos_byte b needle with
    | some p => p :: (candList rest needle).map (fun x => 8 + x)
    | none => (candList rest needle).map (fun x => 8 + x)

/-- adjust_index from src/indexing.rs. The two `try_into().unwrap()` calls
panic when the conversion fails (end_index above i64::MAX, or a negative
adjusted index); panics are modelled as none. -/
def adjust_index (end_index : Nat) (x : Int) : Option Nat :=
  if 2 ^ 63 ≤ end_index then none
  else if x > (end_index : Int) then some end_index
  else if x ≥ 0 then some x.toNat
  else if (end_index : Int) + x + 1 < 0 then none
  else some ((end_index : Int) + x + 1).toNat

/-- adjust_indices from src/indexing.rs: adjust both ends; a panic in either
is a panic of the pair. -/
def adjust_indices (end_index : Nat) (start e : Int) : Option (Nat × Nat) :=
  match adjust_index end_index start, adjust_index end_index e with
  | some a, some b => some (a, b)
  | _, _ => none

/-- Store state shared by the TTL claims: key "k" (byte 107) holds the string
"v" (byte 118), with TTL record "5" — an instant already elapsed once
now = 10 milliseconds. -/
def elapsedState : Store :=
  ((Store.empty.put (typeKey [107]) TYPE_STRING).put (dataKey [107]) [118]).put
    (ttlKey [107]) [53]

/-- Store state for the overflow claim: key "k" holds the decimal text of
i64::MAX as a string. -/
def maxIntState : Store := put_string Store.empty [107] (intToAscii (2 ^ 63 - 1))

/-- Store state for the EXPIRE claims: key "k" holds a string value and has no
TTL record. -/
def liveNoTtlState : Store := put_string Store.empty [107] [118]

/-! ### Claim theorems -/

/-- C1: the claim requires exists(K) = 0 once the TTL record T:K holds a
timestamp ≤ now, but Database::exists consults only the type record: in the
state where T:k = "5" and now = 10 it still returns 1, even though
get_string honours the TTL and reads the same key as absent. -/
theorem c1_exists_ignores_elapsed_ttl :
    parse_timestamp [53] = some 5 ∧
    existsInt elapsedState [107] = 1 ∧
    get_string elapsedState 10 [107] = .ok none := by
  exact ⟨rfl, rfl, rfl⟩

/-- C2: the claim requires increment_by to fail with IntegerOverflow and not
write when old + delta leaves i64, but the source adds with unchecked
arithmetic (and DatabaseError has no overflow variant at all): with
d:k = "9223372036854775807" and delta 1 the addition wraps to i64::MIN,
which is written back. -/
theorem c2_increment_overflow_wraps_and_writes :
    (increment_by maxIntState 0 [107] 1).map
        (fun r => (r.1, r.2.get (dataKey [107]), r.2.get (typeKey [107]))) =
      .ok (-(2 ^ 63), some (intToAscii (-(2 ^ 63))), some TYPE_STRING) := by
  rfl

/-- C5: the claim requires EXPIRE k secs GT (without XX) on a key with no TTL
record to suppress the write and reply 0 (absent TTL read as +infinity), but
the GT branch suppresses only when XX is also given: here it falls through
to update_expiry, replies 1, and creates T:k = now + 100000 ms. -/
theorem c5_gt_on_absent_ttl_writes :
    liveNoTtlState.get (ttlKey [107]) = none ∧
    expireObs (expireCmd liveNoTtlState 0 [107] 100 false false true false)
        [107] =
      some (1, some (natToAscii 100000)) := by
  exact ⟨rfl, rfl⟩

/-- C6: the claim requires TTL and PTTL to reply -2 for a key whose TTL has
elapsed, but get_expiry returns the saturated remainder Some 0 for an
elapsed-but-present T:k, so both commands reply 0 (and EXISTS still reports
1 in the same state, see C1). -/
theorem c6_ttl_replies_zero_not_minus_two :
    ttlReply elapsedState 10 [107] = .ok 0 ∧
    pttlReply elapsedState 10 [107] = .ok 0 ∧
    existsInt elapsedState [107] = 1 := by
  exact ⟨rfl, rfl, rfl⟩

/-- C7 counterexample: on the empty store (key absent) EXPIRE k 100 with no
modifier replies 1 and creates a TTL record, where the claim mandates reply
0 and no record. -/
theorem c7_counterexample :
    existsInt Store.empty [107] = 0 ∧
    expireObs (expireCmd Store.empty 0 [107] 100 false false false false)
        [107] =
      some (1, some (natToAscii 100000)) := by
  exact ⟨rfl, rfl⟩

/-- C7 amended: the no-modifier EXPIRE path never consults key existence: for
every store and key, present or absent, it writes T:K = now + secs * 1000
milliseconds and replies 1 (provided the absolute instant fits in i64;
otherwise the time error propagates). -/
theorem c7_amended_expire_always_writes (st : Store) (now : Nat) (k : Bytes)
    (secs : Nat) (h : now + secs * 1000 ≤ 2 ^ 63 - 1) :
    expireCmd st now k secs false false false false =
      .ok (.replied 1 (st.put (ttlKey k) (natToAscii (now + secs * 1000)))) := by
  have h9 : now + secs * 1000 ≤ 9223372036854775807 := by omega
  simp [expireCmd, put_expiry, serialize_duration_as_timestamp, h9]

/-- Witness for the amended C7 at a concrete absent key and clock. -/
theorem c7_amended_witness :
    expireCmd Store.empty 5 [104] 2 false false false false =
      .ok (.replied 1 (Store.empty.put (ttlKey [104]) (natToAscii 2005))) := by
  have h := c7_amended_expire_always_writes Store.empty 5 [104] 2 (by norm_num)
  simpa using h

/-- C8: immediately after put_string(K, V), get_string(K) returns Some V,
get_hash_field(K, f) fails with WrongType for every field f and every hash
codec, and the TTL record T:K is gone. -/
theorem c8_put_string_read_back (st : Store) (now : Nat) (K V : Bytes) :
    get_string (put_string st K V) now K = .ok (some V) ∧
    (∀ f decodeHash,
      get_hash_field decodeHash (put_string st K V) now K f =
        .error (.wrongType TYPE_HASH)) ∧
    (put_string st K V).get (ttlKey K) = none := by
  have hta : typeKey K ≠ ttlKey K := by simp [typeKey, ttlKey, prepend_key]
  have hda : dataKey K ≠ ttlKey K := by simp [dataKey, ttlKey, prepend_key]
  have htd : typeKey K ≠ dataKey K := by simp [dataKey, typeKey, prepend_key]
  have hSS : eqIgnoreAsciiCase TYPE_STRING TYPE_STRING = true := by decide
  have hSH : eqIgnoreAsciiCase TYPE_STRING TYPE_HASH = false := by decide
  refine ⟨?_, fun f decodeHash => ?_, ?_⟩
  · simp [get_string, get_typed_value, put_string, put_typed_value,
      validate_typed_value, Store.get, Store.put, Store.del, hta, hda, htd,
      hSS]
  · simp [get_hash_field, get_typed_value, put_string, put_typed_value,
      validate_typed_value, Store.get, Store.put, Store.del, hta, hda, htd,
      hSH]
  · simp [put_string, put_typed_value, Store.get, Store.del]

/-- C9 counterexample: at end_index 4 and x = -6 the adjusted value
4 + (-6) + 1 is negative and the usize conversion panics (modelled none),
where the claim mandates a total result for every signed x. -/
theorem c9_counterexample : adjust_index 4 (-6) = none := by
  rfl

/-- C9 amended: for end_index below 2 ^ 63, index normalisation returns
end_index when x > end_index, x when 0 ≤ x ≤ end_index, and
end_index + x + 1 when -(end_index + 1) ≤ x < 0; for x < -(end_index + 1)
the usize conversion panics (modelled none), so the claim's totality holds
only on that restricted domain. -/
theorem c9_amended_adjust_index (end_index : Nat) (x : Int)
    (hn : (end_index : Int) < 2 ^ 63) :
    ((end_index : Int) < x → adjust_index end_index x = some end_index) ∧
    (0 ≤ x → x ≤ (end_index : Int) → adjust_index end_index x = some x.toNat) ∧
    (-(end_index : Int) - 1 ≤ x → x < 0 →
      adjust_index end_index x = some ((end_index : Int) + x + 1).toNat) ∧
    (x < -(end_index : Int) - 1 → adjust_index end_index x = none) := by
  refine ⟨fun ha => ?_, fun ha hb => ?_, fun ha hb => ?_, fun ha => ?_⟩ <;>
    (unfold adjust_index; split_ifs with hA hB hC hD <;> first | rfl | omega)

/-- Witness for the amended C9 at the source's own unit-test values. -/
theorem c9_amended_witness : adjust_index 4 (-3) = some 2 := by
  have h := (c9_amended_adjust_index 4 (-3) (by norm_num)).2.2.1
    (by norm_num) (by norm_num)
  simpa using h

/-- C10: PERSIST replies 1 whenever delete_expiry succeeds: the 0-or-1 count
is discarded by the command layer, so even when no TTL record existed
(delete_expiry returns 0, store unchanged) — in particular when the key is
wholly absent — the reply is still 1. -/
theorem c10_persist_discards_count (st : Store) (k : Bytes) :
    (persistCmd st k).1 = 1 ∧
    (st.get (ttlKey k) = none →
      delete_expiry st k = (0, st) ∧ persistCmd st k = (1, st)) := by
  refine ⟨rfl, fun h => ?_⟩
  constructor
  · simp [delete_expiry, h]
  · simp [persistCmd, delete_expiry, h]

/-- Witness for C10 on the empty store, where the key is absent and no TTL
record exists. -/
theorem c10_persist_witness :
    (persistCmd Store.empty [107]).1 = 1 ∧
    delete_expiry Store.empty [107] = (0, Store.empty) := by
  have h := c10_persist_discards_count Store.empty [107]
  exact ⟨h.1, (h.2 rfl).1⟩

/-- The per-byte search only returns intra-byte positions 0..7. -/
theorem ffbpByteAux_le_seven (bale needle : Nat) :
    ∀ fuel p, ffbpByteAux bale needle fuel = some p → p ≤ 7 := by
  intro fuel
  induction fuel with
  | zero => intro p h; simp [ffbpByteAux] at h
  | succ i ih =>
    intro p h
    simp only [ffbpByteAux] at h
    split at h
    · injection h with h
      omega
    · exact ih p h

/-- Membership in candList: the candidates are exactly the per-byte first
matching positions, as absolute bit indices. -/
theorem mem_candList (haystack : Bytes) (needle pos : Nat) :
    pos ∈ candList haystack needle ↔
      ∃ j < haystack.length, ∃ p,
        find_first_bit_pos_byte (haystack.getD j 0) needle = some p ∧
        pos = j * 8 + p := by
  induction haystack generalizing pos with
  | nil => simp [candList]
  | cons b rest ih =>
    rw [candList]
    cases hb : find_first_bit_pos_byte b needle with
    | some p0 =>
      simp only [List.mem_cons, List.mem_map]
      constructor
      · rintro (rfl | ⟨x, hx, rfl⟩)
        · exact ⟨0, by simp, pos, by simpa using hb, by omega⟩
        · obtain ⟨j, hj, p, hp, rfl⟩ := (ih x).mp hx
          exact ⟨j + 1, by simpa using hj, p, by simpa using hp, by omega⟩
      · rintro ⟨j, hj, p, hp, rfl⟩
        cases j with
        | zero =>
          left
          simp only [List.getD_cons_zero] at hp
          rw [hp] at hb
          injection hb with hb
          omega
        | succ j =>
          right
          refine ⟨j * 8 + p, (ih _).mpr ⟨j, by simpa using hj, p, ?_, rfl⟩, by omega⟩
          simpa using hp
    | none =>
      simp only [List.mem_map]
      constructor
      · rintro ⟨x, hx, rfl⟩
        obtain ⟨j, hj, p, hp, rfl⟩ := (ih x).mp hx
        exact ⟨j + 1, by simpa using hj, p, by simpa using hp, by omega⟩
      · rintro ⟨j, hj, p, hp, rfl⟩
        cases j with
        | zero =>
          simp only [List.getD_cons_zero] at hp
          rw [hp] at hb
          cases hb
        | succ j =>
          refine ⟨j * 8 + p, (ih _).mpr ⟨j, by simpa using hj, p, ?_, rfl⟩, by omega⟩
          simpa using hp

/-- The byte-search loop equals a first-match scan of the candidate list
shifted by the starting byte offset. -/
theorem ffbpAux_eq_find (needle s e : Nat) (l : Bytes) (i0 : Nat) :
    ffbpAux needle s e l i0 =
      ((candList l needle).map (fun x => i0 * 8 + x)).find?
        (fun x => decide (s ≤ x) && decide (x < e)) := by
  induction l generalizing i0 with
  | nil => simp [ffbpAux, candList]
  | cons b rest ih =>
    rw [ffbpAux, candList]
    cases hb : find_first_bit_pos_byte b needle with
    | none =>
      rw [ih (i0 + 1), List.map_map]
      have harith : ((fun x => i0 * 8 + x) ∘ fun x => 8 + x) =
          fun x => (i0 + 1) * 8 + x := by
        funext x
        simp only [Function.comp]
        omega
      rw [harith]
    | some p0 =>
      have harith : ((fun x => i0 * 8 + x) ∘ fun x => 8 + x) =
          fun x => (i0 + 1) * 8 + x := by
        funext x
        simp only [Function.comp]
        omega
      dsimp only
      by_cases hin : s ≤ i0 * 8 + p0 ∧ i0 * 8 + p0 < e
      · rw [if_pos hin, List.map_cons, List.find?_cons_of_pos]
        simp [hin.1, hin.2]
      · rw [if_neg hin, List.map_cons, List.find?_cons_of_neg, List.map_map,
          harith, ih (i0 + 1)]
        simp only [Bool.and_eq_true, decide_eq_true_eq]
        exact fun hx => hin hx

/-- The candidate list is strictly increasing: candidates of later bytes have
strictly larger absolute indices. -/
theorem candList_pairwise (l : Bytes) (needle : Nat) :
    (candList l needle).Pairwise (· < ·) := by
  induction l with
  | nil => simp [candList]
  | cons b rest ih =>
    rw [candList]
    cases hb : find_first_bit_pos_byte b needle with
    | none => exact ih.map _ (fun a c h => by omega)
    | some p =>
      refine List.pairwise_cons.mpr ⟨?_, ih.map _ (fun a c h => by omega)⟩
      intro x hx
      obtain ⟨y, hy, rfl⟩ := List.mem_map.mp hx
      have hp7 := ffbpByteAux_le_seven b needle 8 p hb
      omega

/-- On a strictly increasing list, a first-match scan returns exactly the
minimum element satisfying the test. -/
theorem find_min_of_pairwise (L : List Nat) (q : Nat → Bool)
    (hL : L.Pairwise (· < ·)) (pos : Nat) :
    L.find? q = some pos ↔
      pos ∈ L ∧ q pos = true ∧ ∀ x ∈ L, q x = true → pos ≤ x := by
  induction L with
  | nil => simp
  | cons a t ih =>
    have hpw := List.pairwise_cons.mp hL
    cases hq : q a with
    | true =>
      rw [List.find?_cons_of_pos _ hq]
      constructor
      · intro h
        injection h with h
        subst h
        refine ⟨List.mem_cons_self a t, hq, ?_⟩
        intro x hx hqx
        rcases List.mem_cons.mp hx with rfl | hx
        · exact Nat.le_refl x
        · exact Nat.le_of_lt (hpw.1 x hx)
      · rintro ⟨hmem, hqpos, hmin⟩
        have hle := hmin a (List.mem_cons_self a t) hq
        rcases List.mem_cons.mp hmem with rfl | hmem
        · rfl
        · have := hpw.1 pos hmem
          omega
    | false =>
      rw [List.find?_cons_of_neg _ (by simp [hq]), ih hpw.2]
      constructor
      · rintro ⟨hm, hq2, hmin⟩
        refine ⟨List.mem_cons_of_mem _ hm, hq2, ?_⟩
        intro x hx hqx
        rcases List.mem_cons.mp hx with rfl | hx
        · rw [hqx] at hq
          cases hq
        · exact hmin x hx hqx
      · rintro ⟨hm, hq2, hmin⟩
        rcases List.mem_cons.mp hm with rfl | hm
        · rw [hq2] at hq
          cases hq
        · exact ⟨hm, hq2, fun x hx hqx => hmin x (List.mem_cons_of_mem _ hx) hqx⟩

/-- C3 counterexample: in the byte 0x81 = 0b10000001 with needle 1 the range
[1, 8) contains the matching index 7 (its bit value is 1), so the claim
mandates Some 7; but the search skips the whole byte because the byte's
FIRST matching position 0 falls below the range, and returns none. -/
theorem c3_counterexample :
    bitAt [129] 7 = true ∧ (1 ≤ 7 ∧ 7 < 8) ∧
    find_first_bit_pos [129] 1 1 8 = none := by
  decide

/-- C3 amended: find_first_bit_pos returns Some pos exactly when the range is
non-empty and pos is the least in-range candidate, where each byte
contributes at most one candidate: its first intra-byte position whose bit
equals the needle (a later matching bit of a byte whose first match lies
outside [s, e) is never considered); it returns none when the range is
empty or no candidate lies in it. -/
theorem c3_amended_first_bit_candidate_min (B : Bytes) (needle s e pos : Nat) :
    find_first_bit_pos B needle s e = some pos ↔
      (s < e ∧
       (∃ j < B.length, ∃ p,
          find_first_bit_pos_byte (B.getD j 0) needle = some p ∧
          pos = j * 8 + p) ∧
       s ≤ pos ∧ pos < e ∧
       ∀ j < B.length, ∀ p,
         find_first_bit_pos_byte (B.getD j 0) needle = some p →
         s ≤ j * 8 + p → j * 8 + p < e → pos ≤ j * 8 + p) := by
  unfold find_first_bit_pos
  by_cases hse : e ≤ s
  · rw [if_pos hse]
    constructor
    · intro h
      cases h
    · rintro ⟨h, -⟩
      omega
  · rw [if_neg hse, ffbpAux_eq_find]
    have hid : (candList B needle).map (fun x => 0 * 8 + x) = candList B needle := by
      simp
    rw [hid, find_min_of_pairwise _ _ (candList_pairwise B needle)]
    simp only [mem_candList, Bool.and_eq_true, decide_eq_true_eq]
    constructor
    · rintro ⟨⟨j, hj, p, hp, rfl⟩, ⟨hq1, hq2⟩, hmin⟩
      refine ⟨by omega, ⟨j, hj, p, hp, rfl⟩, hq1, hq2, ?_⟩
      intro j2 hj2 p2 hp2 h1 h2
      exact hmin _ ⟨j2, hj2, p2, hp2, rfl⟩ ⟨h1, h2⟩
    · rintro ⟨-, ⟨j, hj, p, hp, rfl⟩, h1, h2, hmin⟩
      refine ⟨⟨j, hj, p, hp, rfl⟩, ⟨h1, h2⟩, ?_⟩
      rintro x ⟨j2, hj2, p2, hp2, rfl⟩ ⟨hx1, hx2⟩
      exact hmin j2 hj2 p2 hp2 hx1 hx2

/-- The complemented start mask keeps an MSB-first bit position j exactly when
j is at or above the intra-byte start k. -/
theorem startMask_testBit :
    ∀ k < 8, ∀ j < 8,
      (255 - reverseBits8 (bit_to_mask k)).testBit (7 - j) = decide (k ≤ j) := by
  decide

/-- The reversed low-ones end mask keeps an MSB-first bit position j exactly
when j is below the intra-byte end k. -/
theorem endMaskLow_testBit :
    ∀ k < 8, ∀ j < 8,
      (reverseBits8 (bit_to_mask k)).testBit (7 - j) = decide (j < k) := by
  decide

/-- The all-ones end mask keeps every bit. -/
theorem endMask255_testBit : ∀ j < 8, (reverseBits8 255).testBit (7 - j) = true := by
  decide

/-- Number of MSB-first positions the end mask keeps in the end byte: all 8
for a nonzero byte-aligned end, the intra-byte remainder otherwise. -/
def eBitsOf (E : Nat) : Nat := if E % 8 = 0 ∧ E ≠ 0 then 8 else E % 8

/-- The end mask keeps an MSB-first position j exactly when j < eBitsOf. -/
theorem end_bitmask_testBit (E : Nat) :
    ∀ j < 8, (end_bitmask E).testBit (7 - j) = decide (j < eBitsOf E) := by
  intro j hj
  unfold end_bitmask eBitsOf
  split_ifs with h
  · rw [endMask255_testBit j hj]
    simp [hj]
  · exact endMaskLow_testBit (E % 8) (Nat.mod_lt _ (by norm_num)) j hj

/-- Bit value of the per-position body of bit_range, as the original bit
guarded by the byte-range and the two boundary masks. -/
theorem maskByte_testBit (B : Bytes) (s e i j : Nat) (hj : j < 8) :
    (maskByte B s e i).testBit (7 - j) =
      (!(decide (i < s / 8) || decide (end_byte B e < i)) &&
       ((!decide (i = s / 8) || decide (s % 8 ≤ j)) &&
        ((!decide (i = end_byte B e) ||
          decide (j < eBitsOf (end_bit_ex B e))) &&
         (B.getD i 0).testBit (7 - j)))) := by
  have hs8 : s % 8 < 8 := Nat.mod_lt _ (by norm_num)
  have hsm : (255 - start_bitmask s).testBit (7 - j) = decide (s % 8 ≤ j) := by
    unfold start_bitmask
    exact startMask_testBit (s % 8) hs8 j hj
  have hem := end_bitmask_testBit (end_bit_ex B e) j hj
  unfold maskByte
  by_cases h1 : i < s / 8 ∨ end_byte B e < i
  · rw [if_pos h1]
    have hd : (decide (i < s / 8) || decide (end_byte B e < i)) = true := by
      rcases h1 with h | h
      · simp [h]
      · simp [h]
    simp [hd, Nat.zero_testBit]
  · rw [if_neg h1]
    dsimp only
    have h1a : ¬ i < s / 8 := fun h => h1 (Or.inl h)
    have h1b : ¬ end_byte B e < i := fun h => h1 (Or.inr h)
    by_cases h2 : i = s / 8 <;> by_cases h3 : i = end_byte B e
    · rw [if_pos h2, if_pos h3, Nat.testBit_land, Nat.testBit_land, hsm, hem]
      simp only [h1a, h1b, h2, h3, decide_eq_true_eq, decide_True,
        Bool.not_true, Bool.false_or, decide_eq_false_iff_not, not_false_iff,
        Bool.or_false, Bool.not_false, Bool.true_and, Bool.false_or]
      simp [decide_eq_false h1a, decide_eq_false h1b, ← h2, ← h3,
        Bool.and_assoc, Bool.and_comm, Bool.and_left_comm]
    · rw [if_pos h2, if_neg h3, Nat.testBit_land, hsm]
      simp [decide_eq_false h1a, decide_eq_false h1b, decide_eq_false h3,
        ← h2, Bool.and_assoc, Bool.and_comm, Bool.and_left_comm]
    · rw [if_neg h2, if_pos h3, Nat.testBit_land, hem]
      simp [decide_eq_false h1a, decide_eq_false h1b, decide_eq_false h2,
        ← h3, Bool.and_assoc, Bool.and_comm, Bool.and_left_comm]
    · rw [if_neg h2, if_neg h3]
      simp [decide_eq_false h1a, decide_eq_false h1b, decide_eq_false h2,
        decide_eq_false h3]

/-- Element i of a mapped range list. -/
theorem getD_range_map (n : Nat) (f : Nat → Nat) (i : Nat) (hi : i < n) :
    ((List.range n).map f).getD i 0 = f i := by
  rw [List.getD_eq_getElem?_getD, List.getElem?_map, List.getElem?_range hi]
  rfl

/-- Bit g of a cons for g inside the head byte. -/
theorem bitAt_cons_lt (b : Nat) (t : Bytes) (g : Nat) (hg : g < 8) :
    bitAt (b :: t) g = b.testBit (7 - g) := by
  have h1 : g / 8 = 0 := by omega
  have h2 : g % 8 = g := by omega
  simp [bitAt, h1, h2]

/-- Bit 8 + g of a cons is bit g of the tail. -/
theorem bitAt_cons_add (b : Nat) (t : Bytes) (g : Nat) :
    bitAt (b :: t) (8 + g) = bitAt t g := by
  have h1 : (8 + g) / 8 = g / 8 + 1 := by omega
  have h2 : (8 + g) % 8 = g % 8 := by omega
  simp [bitAt, h1, h2]

set_option maxRecDepth 4096 in
/-- Counting one-bits MSB-first and LSB-first agree on one byte. -/
theorem count_msb_eq_count (c : Nat) :
    ((List.range 8).filter fun g => c.testBit (7 - g)).length =
      ((List.range 8).filter fun t2 => c.testBit t2).length := by
  have hmod : ∀ t2, t2 < 8 → c.testBit t2 = (c % 256).testBit t2 := by
    intro t2 ht2
    rw [show (256 : Nat) = 2 ^ 8 from rfl, Nat.testBit_mod_two_pow]
    simp [ht2]
  have h1 : ((List.range 8).filter fun g => c.testBit (7 - g)) =
      ((List.range 8).filter fun g => (c % 256).testBit (7 - g)) := by
    apply List.filter_congr
    intro g hg
    simp only [List.mem_range] at hg
    rw [hmod _ (by omega)]
  have h2 : ((List.range 8).filter fun t2 => c.testBit t2) =
      ((List.range 8).filter fun t2 => (c % 256).testBit t2) := by
    apply List.filter_congr
    intro g hg
    simp only [List.mem_range] at hg
    rw [hmod _ hg]
  rw [h1, h2]
  have hc : c % 256 < 256 := Nat.mod_lt _ (by norm_num)
  exact (by decide :
    ∀ d < 256, ((List.range 8).filter fun g => d.testBit (7 - g)).length =
      ((List.range 8).filter fun t2 => d.testBit t2).length) _ hc

/-- popcount counts exactly the set bit positions of the byte string. -/
theorem popcount_eq_filter (l : Bytes) :
    popcount l =
      ((List.range (8 * l.length)).filter fun g => bitAt l g).length := by
  induction l with
  | nil => simp [popcount]
  | cons b t ih =>
    have hsplit : 8 * (b :: t).length = 8 + 8 * t.length := by
      simp [List.length_cons]
      omega
    rw [hsplit, List.range_add, List.filter_append, List.length_append]
    have hpart1 :
        ((List.range 8).filter fun g => bitAt (b :: t) g).length =
          bytePopcount b := by
      have hcg : ((List.range 8).filter fun g => bitAt (b :: t) g) =
          ((List.range 8).filter fun g => b.testBit (7 - g)) := by
        apply List.filter_congr
        intro g hg
        simp only [List.mem_range] at hg
        rw [bitAt_cons_lt b t g hg]
      rw [hcg, count_msb_eq_count]
      rfl
    have hpart2 :
        (((List.range (8 * t.length)).map (fun x => 8 + x)).filter
            fun g => bitAt (b :: t) g).length =
          ((List.range (8 * t.length)).filter fun g => bitAt t g).length := by
      rw [List.filter_map, List.length_map]
      congr 1
      apply List.filter_congr
      intro g hg
      simp only [Function.comp]
      exact bitAt_cons_add b t g
    rw [hpart1, hpart2, ← ih]
    rfl

/-- C4 counterexample: for B = [0x00, 0xFF] and the byte-aligned range [0, 8)
the claim mandates a result whose bits outside the range are zero (so byte 1
cleared and popcount 0), but the code derives end_byte = 1 from the
exclusive end 8 and applies a full end mask to it: the result is
[0x00, 0xFF], bit 8 survives outside [0, 8), and popcount is 8. -/
theorem c4_counterexample :
    bit_range [0, 255] 0 8 = [0, 255] ∧
    bitAt (bit_range [0, 255] 0 8) 8 = true ∧ ¬ (8 < 8) ∧
    popcount (bit_range [0, 255] 0 8) = 8 := by
  decide

/-- C4 amended: for non-empty B and s ≤ e ≤ 8·|B|, bit_range has the stated
masking semantics PROVIDED the end is not a positive byte-aligned index
below the total bit length and not s = e = 8·|B| (in those excluded cases
the clamp keeps the whole byte e/8, resp. returns the empty vector, see the
counterexample): the result keeps the length of B, every bit of [s, e)
keeps its value and every bit outside is zero, and popcount of the result
counts exactly the one-bits of B inside [s, e). -/
theorem c4_amended_bit_range (B : Bytes) (s e : Nat) (hB : B ≠ [])
    (hse : s ≤ e) (he : e ≤ 8 * B.length)
    (hOk : e % 8 ≠ 0 ∨ e = 0 ∨ (e = 8 * B.length ∧ s < 8 * B.length)) :
    (bit_range B s e).length = B.length ∧
    (∀ g < 8 * B.length,
      bitAt (bit_range B s e) g =
        (decide (s ≤ g) && decide (g < e) && bitAt B g)) ∧
    popcount (bit_range B s e) =
      ((List.range (8 * B.length)).filter
        (fun g => decide (s ≤ g) && decide (g < e) && bitAt B g)).length := by
  have hn0 : B.length ≠ 0 := fun h => hB (List.length_eq_zero.mp h)
  have hn1 : 0 < B.length := Nat.pos_of_ne_zero hn0
  have hchar : (end_byte B e = B.length - 1 ∧ end_bit_ex B e = B.length * 8 ∧
        B.length ≤ e / 8) ∨
      (end_byte B e = e / 8 ∧ end_bit_ex B e = e ∧ e / 8 < B.length) := by
    unfold end_byte end_bit_ex
    by_cases hcl : B.length - 1 < e / 8
    · exact Or.inl ⟨if_pos hcl, if_pos hcl, by omega⟩
    · exact Or.inr ⟨if_neg hcl, if_neg hcl, by omega⟩
  have hguard : ¬ (end_byte B e < s / 8) := by
    rcases hchar with ⟨h1, h2, h3⟩ | ⟨h1, h2, h3⟩ <;> omega
  have hlist : bit_range B s e = (List.range B.length).map (maskByte B s e) := by
    unfold bit_range
    rw [if_neg hn0, if_neg hguard]
  have hlen : (bit_range B s e).length = B.length := by
    rw [hlist]
    simp
  have heb : (end_bit_ex B e % 8 = 0 ∧ end_bit_ex B e ≠ 0 ∧
        eBitsOf (end_bit_ex B e) = 8) ∨
      (¬ (end_bit_ex B e % 8 = 0 ∧ end_bit_ex B e ≠ 0) ∧
        eBitsOf (end_bit_ex B e) = end_bit_ex B e % 8) := by
    unfold eBitsOf
    by_cases hq : end_bit_ex B e % 8 = 0 ∧ end_bit_ex B e ≠ 0
    · exact Or.inl ⟨hq.1, hq.2, if_pos hq⟩
    · exact Or.inr ⟨hq, if_neg hq⟩
  have hbit : ∀ g < 8 * B.length,
      bitAt (bit_range B s e) g =
        (decide (s ≤ g) && decide (g < e) && bitAt B g) := by
    intro g hg
    have hdiv : g / 8 < B.length := by omega
    have hmod : g % 8 < 8 := by omega
    simp only [bitAt, hlist]
    rw [getD_range_map _ _ _ hdiv, maskByte_testBit B s e (g / 8) (g % 8) hmod]
    cases htb : (B.getD (g / 8) 0).testBit (7 - g % 8) with
    | false => simp [htb]
    | true =>
      simp only [htb, Bool.and_true]
      rw [Bool.eq_iff_iff]
      simp only [Bool.not_or, Bool.and_eq_true, Bool.or_eq_true,
        Bool.not_eq_true', decide_eq_true_eq, decide_eq_false_iff_not]
      omega
  refine ⟨hlen, hbit, ?_⟩
  rw [popcount_eq_filter, hlen]
  apply congrArg List.length
  apply List.filter_congr
  intro g hg
  simp only [List.mem_range] at hg
  exact hbit g hg

/-- Witness for the amended C4 on a concrete two-byte value and a range not
hitting the excluded byte-aligned-end case. -/
theorem c4_amended_witness :
    (bit_range [240, 15] 2 14).length = 2 ∧
    popcount (bit_range [240, 15] 2 14) =
      ((List.range 16).filter
        (fun g => decide (2 ≤ g) && decide (g < 14) && bitAt [240, 15] g)).length := by
  have h := c4_amended_bit_range [240, 15] 2 14 (by decide) (by decide)
    (by decide) (by decide)
  exact ⟨h.1, h.2.2⟩

end Wedis
